import Mathlib

/-!
Verification of the PypeIt datacube core (`pypeit/core/datacube.py`).

This file gives a shallow embedding, over exact rationals, of the functions
`subpixellate`, `create_wcs`, `wcs_bounds`, `get_whitelight_pixels` and
`make_whitelight_fromcube`, together with theorems settling the frozen
claims about them.  External library collaborators (astropy's
`wcs_world2pix`, the per-frame DAR corrector, the astrometric transform,
the tilt image, and `numpy.cos`) are taken as function-valued parameters,
exactly as the source receives them as objects; `scipy.interp1d` (linear,
extrapolating), `numpy.arange` and the `fast_histogram.histogramdd` kernel
(regular bins, upper edge exclusive, out-of-range points silently dropped)
are embedded directly.
-/

namespace Datacube

/-! ### Basic numeric helpers (numpy semantics over ℚ) -/

/-- `np.min` of a list (the empty case raises in numpy; we default to 0,
and theorems that need it carry a nonemptiness hypothesis). -/
def listMin : List ℚ → ℚ
  | [] => 0
  | a :: t => t.foldl min a

/-- `np.max` of a list. -/
def listMax : List ℚ → ℚ
  | [] => 0
  | a :: t => t.foldl max a

/-- `np.mean` of a list. -/
def meanQ (l : List ℚ) : ℚ := l.sum / l.length

/-- Python `int()` applied to a float: truncation toward zero. -/
def truncQ (x : ℚ) : ℤ := if 0 ≤ x then ⌊x⌋ else -⌊-x⌋

/-- `np.round` to an integer: round half to even (banker's rounding). -/
def roundHalfEven (x : ℚ) : ℤ :=
  if x - ⌊x⌋ < 1/2 then ⌊x⌋
  else if 1/2 < x - ⌊x⌋ then ⌊x⌋ + 1
  else if 2 ∣ ⌊x⌋ then ⌊x⌋ else ⌊x⌋ + 1

/-- `np.arange(start, stop, step)`: `⌈(stop - start)/step⌉` points
`start + k*step`. -/
def arangeQ (start stop step : ℚ) : List ℚ :=
  (List.range (⌈(stop - start) / step⌉).toNat).map (fun (k : ℕ) => start + (k : ℚ) * step)

/-- Modelled from the spec: `pypeit.utils.inverse` is not under `src/`;
the spec defines the safe inverse as the "reciprocal convention where 1/0
is defined as 0 instead of raising or producing infinity". -/
def inverse (x : ℚ) : ℚ := if x = 0 then 0 else x⁻¹

theorem inverse_zero : inverse 0 = 0 := rfl

theorem inverse_of_ne_zero (x : ℚ) (hx : x ≠ 0) : inverse x = x⁻¹ := if_neg hx

/-- Auxiliary: `foldl min` is bounded by its initial value. -/
theorem foldl_min_le_init (t : List ℚ) : ∀ a : ℚ, t.foldl min a ≤ a := by
  induction t with
  | nil => intro a; simp
  | cons b t ih =>
    intro a
    calc (b :: t).foldl min a = t.foldl min (min a b) := rfl
    _ ≤ min a b := ih (min a b)
    _ ≤ a := min_le_left a b

/-- Auxiliary: `foldl max` dominates its initial value. -/
theorem init_le_foldl_max (t : List ℚ) : ∀ a : ℚ, a ≤ t.foldl max a := by
  induction t with
  | nil => intro a; simp
  | cons b t ih =>
    intro a
    calc a ≤ max a b := le_max_left a b
    _ ≤ t.foldl max (max a b) := ih (max a b)
    _ = (b :: t).foldl max a := rfl

theorem listMin_le_listMax (l : List ℚ) : listMin l ≤ listMax l := by
  cases l with
  | nil => simp [listMin, listMax]
  | cons a t =>
    calc listMin (a :: t) = t.foldl min a := rfl
    _ ≤ a := foldl_min_le_init t a
    _ ≤ t.foldl max a := init_le_foldl_max t a
    _ = listMax (a :: t) := rfl

/-! ### Subpixel offsets (datacube.py lines 1452-1453)

`spec_offs = np.arange(0.5/spec_subpixel, 1, 1/spec_subpixel) - 0.5`, and
the same formula with the spatial factor.  A single definition serves both
axes. -/

/-- The per-axis subpixel offsets of `subpixellate` (lines 1452-1453). -/
def pixOffsets (n : ℕ) : List ℚ :=
  (arangeQ (1 / (2 * (n : ℚ))) 1 (1 / (n : ℚ))).map (fun o => o - 1/2)

theorem arangeQ_len_offsets (n : ℕ) (hn : 1 ≤ n) :
    (⌈((1 : ℚ) - 1 / (2 * (n : ℚ))) / (1 / (n : ℚ))⌉).toNat = n := by
  have hn0 : (0 : ℚ) < (n : ℚ) := by exact_mod_cast hn
  have harg : ((1 : ℚ) - 1 / (2 * (n : ℚ))) / (1 / (n : ℚ)) = (n : ℚ) - 1/2 := by
    field_simp
    ring
  rw [harg]
  have hceil : ⌈(n : ℚ) - 1/2⌉ = (n : ℤ) := by
    rw [Int.ceil_eq_iff]
    constructor
    · push_cast
      linarith
    · push_cast
      linarith
  rw [hceil]
  exact Int.toNat_natCast n

theorem pixOffsets_eq (n : ℕ) (hn : 1 ≤ n) :
    pixOffsets n = (List.range n).map (fun (k : ℕ) => ((k : ℚ) + 1/2) / (n : ℚ) - 1/2) := by
  have hn0 : ((n : ℚ)) ≠ 0 := by
    have : (0 : ℚ) < (n : ℚ) := by exact_mod_cast hn
    exact ne_of_gt this
  unfold pixOffsets arangeQ
  rw [arangeQ_len_offsets n hn, List.map_map]
  apply List.map_congr_left
  intro k _
  simp only [Function.comp_apply]
  field_simp
  ring

theorem pixOffsets_length (n : ℕ) (hn : 1 ≤ n) : (pixOffsets n).length = n := by
  rw [pixOffsets_eq n hn]
  simp

/-! ### `get_whitelight_pixels` (datacube.py lines 430-454) -/

/-- `get_whitelight_pixels(all_wave, min_wl, max_wl)`: indices of the pixels
inside the requested wavelength range together with the wavelength span.
The source computes `wavediff = np.max - np.min` up front and overwrites it
in the overlapping branch; the two branches are written directly here. -/
def get_whitelight_pixels (all_wave : List ℚ) (min_wl max_wl : ℚ) : List ℕ × ℚ :=
  if min_wl < max_wl then
    ((List.range all_wave.length).filter
       (fun i => decide (min_wl < all_wave.getD i 0) && decide (all_wave.getD i 0 < max_wl)),
     max_wl - min_wl)
  else
    (List.range all_wave.length, listMax all_wave - listMin all_wave)

/-! ### `make_whitelight_fromcube` (datacube.py lines 496-539) -/

/-- A 3D cube of rationals, indexed (ra, dec, wavelength). -/
def Cube3 : Type := ℕ → ℕ → ℕ → ℚ

/-- Number of nonzero wavelength entries of a spaxel over the (cut) slice
`[a, b)`: `nrmval = np.sum(cutcube != 0.0, axis=2)` (line 536). -/
def nzCount (cube : Cube3) (a b i j : ℕ) : ℕ :=
  ((Finset.Ico a b).filter (fun k => cube i j k ≠ 0)).card

/-- The divisor used for the collapse: the nonzero count with zeros replaced
by one, `nrmval[nrmval == 0.0] = 1.0` (line 537). -/
def wlNorm (cube : Cube3) (a b i j : ℕ) : ℚ :=
  if nzCount cube a b i j = 0 then 1 else (nzCount cube a b i j : ℚ)

/-- `wl_img = np.sum(cutcube, axis=2) / nrmval` (line 538), over the slice
`[a, b)` of the wavelength axis. -/
def wlCollapse (cube : Cube3) (a b : ℕ) : ℕ → ℕ → ℚ :=
  fun i j => (∑ k in Finset.Ico a b, cube i j k) / wlNorm cube a b i j

/-- `make_whitelight_fromcube(cube, wave, wavemin, wavemax)`.  `n3` is
`cube.shape[2]`.  The error paths of the source (`msgs.error` when `wave` is
missing or of mismatched length, and the index error when no wavelength
survives the cut) are returned as `none`. -/
def make_whitelight_fromcube (cube : Cube3) (n3 : ℕ) (wave : Option (List ℚ))
    (wavemin wavemax : Option ℚ) : Option (ℕ → ℕ → ℚ) :=
  match wavemin, wavemax with
  | none, none => some (wlCollapse cube 0 n3)
  | _, _ =>
    match wave with
    | none => none
    | some w =>
      if w.length ≠ n3 then none
      else
        let wmn := wavemin.getD (listMin w)
        let wmx := wavemax.getD (listMax w)
        match (List.range n3).filter
            (fun k => decide (wmn ≤ w.getD k 0) && decide (w.getD k 0 ≤ wmx)) with
        | [] => none
        | k0 :: rest => some (wlCollapse cube k0 (rest.getLastD k0 + 1))

/-! ### Claim theorems: C6, C8, C9, C10 -/

/-- C6: for every `spec_subpixel = n ≥ 1` (and identically for the spatial
factor), `subpixellate`'s per-axis offsets are `(k + 1/2)/n - 1/2` for
`k = 0..n-1`, all strictly inside `(-1/2, 1/2)`, and for `n = 1` the single
offset is `0` (nearest grid point). -/
theorem pixOffsets_centered_grid (n : ℕ) (hn : 1 ≤ n) :
    pixOffsets n = (List.range n).map (fun (k : ℕ) => ((k : ℚ) + 1/2) / (n : ℚ) - 1/2)
    ∧ (∀ o ∈ pixOffsets n, -(1/2) < o ∧ o < 1/2)
    ∧ pixOffsets 1 = [0] := by
  refine ⟨pixOffsets_eq n hn, ?_, by
    rw [pixOffsets_eq 1 le_rfl]
    norm_num
    rw [show List.range 1 = [0] from rfl]
    simp⟩
  intro o ho
  rw [pixOffsets_eq n hn] at ho
  rcases List.mem_map.mp ho with ⟨k, hk, rfl⟩
  have hkn : k < n := List.mem_range.mp hk
  have hn0 : (0 : ℚ) < (n : ℚ) := by exact_mod_cast hn
  have hnum0 : (0 : ℚ) < (k : ℚ) + 1/2 := by positivity
  have hklt : ((k : ℚ) + 1/2) < (n : ℚ) := by
    have : ((k : ℚ)) + 1 ≤ (n : ℚ) := by exact_mod_cast hkn
    linarith
  have h1 : (0 : ℚ) < ((k : ℚ) + 1/2) / (n : ℚ) := div_pos hnum0 hn0
  have h2 : ((k : ℚ) + 1/2) / (n : ℚ) < 1 := (div_lt_one hn0).mpr hklt
  constructor <;> linarith

theorem pixOffsets_centered_grid_witness :
    1 ≤ 4
    ∧ (pixOffsets 4 = (List.range 4).map (fun (k : ℕ) => ((k : ℚ) + 1/2) / (4 : ℚ) - 1/2)
       ∧ (∀ o ∈ pixOffsets 4, -(1/2) < o ∧ o < 1/2)
       ∧ pixOffsets 1 = [0]) :=
  ⟨by decide, pixOffsets_centered_grid 4 (by decide)⟩

/-- C8: when `min_wl < max_wl`, `get_whitelight_pixels` returns the indices
of the pixels with `min_wl < wavelength < max_wl` and
`wavediff = max_wl - min_wl`; when the frames do not overlap
(`max_wl ≤ min_wl`) it falls back to all pixels and the full data span
`max - min`, returning normally in both cases. -/
theorem get_whitelight_pixels_fallback (all_wave : List ℚ) (min_wl max_wl : ℚ)
    (_hne : all_wave ≠ []) :
    (min_wl < max_wl →
      (∀ i, i ∈ (get_whitelight_pixels all_wave min_wl max_wl).1 ↔
        i < all_wave.length ∧ min_wl < all_wave.getD i 0 ∧ all_wave.getD i 0 < max_wl)
      ∧ (get_whitelight_pixels all_wave min_wl max_wl).2 = max_wl - min_wl)
    ∧ (max_wl ≤ min_wl →
      (∀ i, i ∈ (get_whitelight_pixels all_wave min_wl max_wl).1 ↔ i < all_wave.length)
      ∧ (get_whitelight_pixels all_wave min_wl max_wl).2
          = listMax all_wave - listMin all_wave) := by
  constructor
  · intro h
    constructor
    · intro i
      simp [get_whitelight_pixels, if_pos h, List.mem_filter, List.mem_range,
        decide_eq_true_eq, and_assoc]
    · simp [get_whitelight_pixels, if_pos h]
  · intro h
    have h' : ¬ min_wl < max_wl := not_lt.mpr h
    constructor
    · intro i
      simp [get_whitelight_pixels, if_neg h', List.mem_range]
    · simp [get_whitelight_pixels, if_neg h']

theorem get_whitelight_pixels_fallback_witness :
    ([1, 2, 3] : List ℚ) ≠ []
    ∧ (((0 : ℚ) < 10 →
        (∀ i, i ∈ (get_whitelight_pixels [1, 2, 3] 0 10).1 ↔
          i < ([1, 2, 3] : List ℚ).length
            ∧ (0 : ℚ) < ([1, 2, 3] : List ℚ).getD i 0
            ∧ ([1, 2, 3] : List ℚ).getD i 0 < 10)
        ∧ (get_whitelight_pixels [1, 2, 3] 0 10).2 = 10 - 0)
      ∧ ((10 : ℚ) ≤ 0 →
        (∀ i, i ∈ (get_whitelight_pixels [1, 2, 3] 0 10).1 ↔
          i < ([1, 2, 3] : List ℚ).length)
        ∧ (get_whitelight_pixels [1, 2, 3] 0 10).2
            = listMax [1, 2, 3] - listMin [1, 2, 3])) :=
  ⟨by decide, get_whitelight_pixels_fallback [1, 2, 3] 0 10 (by decide)⟩

/-- C9: with no wavelength cut, `make_whitelight_fromcube` collapses each
spaxel to its wavelength sum divided by the count of nonzero wavelength
entries; a cube constantly equal to a nonzero `c` collapses to the all-`c`
image. -/
theorem make_whitelight_fromcube_collapse (cube : Cube3) (n3 : ℕ) :
    make_whitelight_fromcube cube n3 none none none = some (wlCollapse cube 0 n3)
    ∧ (∀ i j, nzCount cube 0 n3 i j ≠ 0 →
        wlCollapse cube 0 n3 i j
          = (∑ k in Finset.Ico 0 n3, cube i j k) / (nzCount cube 0 n3 i j : ℚ))
    ∧ (∀ c : ℚ, c ≠ 0 → 1 ≤ n3 → (∀ i j k, k < n3 → cube i j k = c) →
        ∀ i j, wlCollapse cube 0 n3 i j = c) := by
  refine ⟨rfl, ?_, ?_⟩
  · intro i j h
    unfold wlCollapse wlNorm
    rw [if_neg h]
  · intro c hc hn3 hcube i j
    have hfilter : (Finset.Ico 0 n3).filter (fun k => cube i j k ≠ 0) = Finset.Ico 0 n3 := by
      apply Finset.filter_true_of_mem
      intro k hk
      rw [hcube i j k (Finset.mem_Ico.mp hk).2]
      exact hc
    have hcount : nzCount cube 0 n3 i j = n3 := by
      unfold nzCount
      rw [hfilter]
      simp
    have hsum : (∑ k in Finset.Ico 0 n3, cube i j k) = (n3 : ℚ) * c := by
      rw [Finset.sum_congr rfl (fun k hk => hcube i j k (Finset.mem_Ico.mp hk).2)]
      simp [mul_comm]
    have hn0 : (n3 : ℚ) ≠ 0 := by
      have : 0 < n3 := hn3
      positivity
    unfold wlCollapse wlNorm
    rw [hcount, hsum, if_neg (by omega)]
    exact mul_div_cancel_left₀ c hn0

theorem make_whitelight_fromcube_collapse_witness :
    make_whitelight_fromcube (fun _ _ _ => 2) 3 none none none
      = some (wlCollapse (fun _ _ _ => 2) 0 3)
    ∧ (∀ i j, nzCount (fun _ _ _ => 2) 0 3 i j ≠ 0 →
        wlCollapse (fun _ _ _ => 2) 0 3 i j
          = (∑ k in Finset.Ico 0 3, (fun (_ _ _ : ℕ) => (2:ℚ)) i j k)
              / (nzCount (fun _ _ _ => 2) 0 3 i j : ℚ))
    ∧ (∀ c : ℚ, c ≠ 0 → 1 ≤ 3 → (∀ i j k, k < 3 → (fun (_ _ _ : ℕ) => (2:ℚ)) i j k = c) →
        ∀ i j, wlCollapse (fun _ _ _ => 2) 0 3 i j = c) :=
  make_whitelight_fromcube_collapse (fun _ _ _ => 2) 3

/-- C10: the collapse divisor is never zero (a zero nonzero-count is
replaced by one), so the whitelight image is total; a spaxel whose (cut)
wavelength slice is identically zero collapses to exactly 0. -/
theorem make_whitelight_fromcube_total (cube : Cube3) (a b n3 : ℕ) :
    (∀ i j, wlNorm cube a b i j ≠ 0)
    ∧ (∀ i j, (∀ k, a ≤ k → k < b → cube i j k = 0) → wlCollapse cube a b i j = 0)
    ∧ (∀ img, make_whitelight_fromcube cube n3 none none none = some img →
        ∀ i j, (∀ k, k < n3 → cube i j k = 0) → img i j = 0) := by
  have hzero : ∀ i j, (∀ k, a ≤ k → k < b → cube i j k = 0) → wlCollapse cube a b i j = 0 := by
    intro i j hz
    unfold wlCollapse
    rw [Finset.sum_eq_zero (fun k hk => hz k (Finset.mem_Ico.mp hk).1 (Finset.mem_Ico.mp hk).2)]
    exact zero_div _
  refine ⟨?_, hzero, ?_⟩
  · intro i j
    unfold wlNorm
    split
    · exact one_ne_zero
    · next h => exact_mod_cast h
  · intro img himg i j hz
    have : img = wlCollapse cube 0 n3 := by
      have h0 : make_whitelight_fromcube cube n3 none none none
          = some (wlCollapse cube 0 n3) := rfl
      rw [h0] at himg
      exact (Option.some.inj himg).symm
    rw [this]
    unfold wlCollapse
    rw [Finset.sum_eq_zero (fun k hk => hz k (Finset.mem_Ico.mp hk).2)]
    exact zero_div _

theorem make_whitelight_fromcube_total_witness :
    (∀ i j, wlNorm (fun _ _ _ => 0) 0 3 i j ≠ 0)
    ∧ (∀ i j, (∀ k, 0 ≤ k → k < 3 → (fun (_ _ _ : ℕ) => (0:ℚ)) i j k = 0) →
        wlCollapse (fun _ _ _ => 0) 0 3 i j = 0)
    ∧ (∀ img, make_whitelight_fromcube (fun _ _ _ => 0) 3 none none none = some img →
        ∀ i j, (∀ k, k < 3 → (fun (_ _ _ : ℕ) => (0:ℚ)) i j k = 0) → img i j = 0) :=
  make_whitelight_fromcube_total (fun _ _ _ => 0) 0 3 3

/-! ### `wcs_bounds` and `create_wcs` (datacube.py lines 663-824)

The astropy celestial machinery is reduced to the data actually produced by
`generate_WCS`: the reference values `crval` and the steps `cdelt`
(lines 796-797, 854-857).  `np.cos` is an external library routine and is
passed in as `cosdeg` (cosine of an angle given in degrees), applied to the
mean declination exactly as on line 776. -/

/-- The WCS data produced by `generate_WCS`: reference coordinate and per-axis
step for (RA, Dec, wavelength). -/
structure WcsOut where
  crval : ℚ × ℚ × ℚ
  cdelt : ℚ × ℚ × ℚ

/-- A reference image (`load_imageWCS` result): its celestial WCS reference,
steps, and pixel counts (`reference_image.shape`). -/
structure RefImg where
  crval1 : ℚ
  crval2 : ℚ
  cdelt1 : ℚ
  cdelt2 : ℚ
  shape1 : ℕ
  shape2 : ℕ

/-- `wcs_bounds` (lines 710-717): each bound defaults to the data extremum
unless explicitly overridden. -/
def wcs_bounds (all_ra all_dec all_wave : List ℚ)
    (ra_min ra_max dec_min dec_max wave_min wave_max : Option ℚ) :
    ℚ × ℚ × ℚ × ℚ × ℚ × ℚ :=
  (ra_min.getD (listMin all_ra), ra_max.getD (listMax all_ra),
   dec_min.getD (listMin all_dec), dec_max.getD (listMax all_dec),
   wave_min.getD (listMin all_wave), wave_max.getD (listMax all_wave))

/-- Voxel count along RA (line 784): `int((_ra_max-_ra_min)*cosdec/dspat)`. -/
def numraOf (ra_lo ra_hi cosdec dspat : ℚ) : ℤ := truncQ ((ra_hi - ra_lo) * cosdec / dspat)

/-- Voxel count along Dec (line 785): `int((_dec_max-_dec_min)/dspat)`. -/
def numdecOf (dec_lo dec_hi dspat : ℚ) : ℤ := truncQ ((dec_hi - dec_lo) / dspat)

/-- Voxel count along wavelength (line 786):
`int(np.round((_wav_max-_wav_min)/dwave))`. -/
def numwavOf (wav_lo wav_hi dwave : ℚ) : ℤ := roundHalfEven ((wav_hi - wav_lo) / dwave)

/-- Bin edges `np.arange(1 + num) - 0.5` (lines 820-822). -/
def binsOf (num : ℤ) : List ℚ :=
  (List.range (1 + num).toNat).map (fun (i : ℕ) => (i : ℚ) - 1/2)

/-- `create_wcs` (lines 720-824), returning the WCS data, the three bin-edge
arrays, and the loaded reference image (if any). -/
def create_wcs (all_ra all_dec all_wave : List ℚ) (dspat dwave : ℚ) (cosdeg : ℚ → ℚ)
    (ra_min ra_max dec_min dec_max wave_min wave_max : Option ℚ)
    (reference : Option RefImg) (collapse : Bool) :
    WcsOut × (List ℚ × List ℚ × List ℚ) × Option RefImg :=
  let cosdec := cosdeg (meanQ all_dec)
  let (ra_lo, ra_hi, dec_lo, dec_hi, wav_lo, wav_hi) :=
    wcs_bounds all_ra all_dec all_wave ra_min ra_max dec_min dec_max wave_min wave_max
  let numra := numraOf ra_lo ra_hi cosdec dspat
  let numdec := numdecOf dec_lo dec_hi dspat
  let numwav := numwavOf wav_lo wav_hi dwave
  -- collapse mode (lines 788-793): one wavelength bin spanning the full data
  let wav_lo1 := if collapse then listMin all_wave else wav_lo
  let wav_hi1 := if collapse then listMax all_wave else wav_hi
  let dwave1 := if collapse then wav_hi1 - wav_lo1 else dwave
  let numwav1 := if collapse then 1 else numwav
  match reference with
  | none =>
    (⟨(ra_lo, dec_lo, wav_lo1), (dspat, dspat, dwave1)⟩,
     (binsOf numra, binsOf numdec, binsOf numwav1), none)
  | some img =>
    (⟨(img.crval1, img.crval2, wav_lo1), (img.cdelt1, img.cdelt2, dwave1)⟩,
     (binsOf img.shape1, binsOf img.shape2, binsOf numwav1), some img)

theorem truncQ_eq_floor (x : ℚ) (hx : 0 ≤ x) : truncQ x = ⌊x⌋ := if_pos hx

/-- C4: the voxel counts of `create_wcs` are the floor of
`extent*cos(dec)/step` (RA), the floor of `extent/step` (Dec), and the
nearest integer (half-to-even) of `extent/dwave` (wavelength); concretely,
RA extent 1 degree at `cos(dec) = 1` with step `1/10000` degree gives
`numra = 10000` and an RA bin-edge array of 10001 edges. -/
theorem create_wcs_grid_sizing (lo hi cosdec dspat dwave : ℚ)
    (hd : 0 < dspat) (_hw : 0 < dwave) :
    (0 ≤ (hi - lo) * cosdec → numraOf lo hi cosdec dspat = ⌊(hi - lo) * cosdec / dspat⌋)
    ∧ (lo ≤ hi → numdecOf lo hi dspat = ⌊(hi - lo) / dspat⌋)
    ∧ |(hi - lo) / dwave - (numwavOf lo hi dwave : ℚ)| ≤ 1/2
    ∧ numraOf 0 1 1 (1/10000) = 10000
    ∧ (create_wcs [10, 11] [0, 0] [100, 200] (1/10000) 50 (fun _ => 1)
        none none none none none none none false).2.1.1 = binsOf 10000
    ∧ (binsOf 10000).length = 10001 := by
  have hnumra : numraOf 0 1 1 (1/10000) = 10000 := by
    unfold numraOf truncQ
    norm_num
  refine ⟨?_, ?_, ?_, hnumra, ?_, ?_⟩
  · intro h
    exact truncQ_eq_floor _ (div_nonneg h hd.le)
  · intro h
    exact truncQ_eq_floor _ (div_nonneg (by linarith) hd.le)
  · unfold numwavOf roundHalfEven
    have h1 := Int.floor_le ((hi - lo) / dwave)
    have h2 := Int.lt_floor_add_one ((hi - lo) / dwave)
    split_ifs <;> rw [abs_le] <;> constructor <;> push_cast <;> linarith
  · show (create_wcs [10, 11] [0, 0] [100, 200] (1/10000) 50 (fun _ => 1)
        none none none none none none none false).2.1.1 = binsOf 10000
    rw [show (create_wcs [10, 11] [0, 0] [100, 200] (1/10000) 50 (fun _ => 1)
        none none none none none none none false).2.1.1
      = binsOf (numraOf (listMin [10, 11]) (listMax [10, 11]) 1 (1/10000)) from rfl]
    congr 1
    have hmm : listMin [(10 : ℚ), 11] = 10 ∧ listMax [(10 : ℚ), 11] = 11 := by
      constructor <;> simp [listMin, listMax] <;> norm_num
    rw [hmm.1, hmm.2]
    unfold numraOf truncQ
    norm_num
  · rw [show binsOf 10000 = (List.range 10001).map (fun (i : ℕ) => (i : ℚ) - 1/2) from rfl]
    simp

theorem create_wcs_grid_sizing_witness :
    (0 : ℚ) < 1/10000 ∧ (0 : ℚ) < 2
    ∧ ((0 ≤ ((2 : ℚ) - 1) * 1 → numraOf 1 2 1 (1/10000) = ⌊((2 : ℚ) - 1) * 1 / (1/10000)⌋)
      ∧ ((1 : ℚ) ≤ 2 → numdecOf 1 2 (1/10000) = ⌊((2 : ℚ) - 1) / (1/10000)⌋)
      ∧ |((2 : ℚ) - 1) / 2 - (numwavOf 1 2 2 : ℚ)| ≤ 1/2
      ∧ numraOf 0 1 1 (1/10000) = 10000
      ∧ (create_wcs [10, 11] [0, 0] [100, 200] (1/10000) 50 (fun _ => 1)
          none none none none none none none false).2.1.1 = binsOf 10000
      ∧ (binsOf 10000).length = 10001) :=
  ⟨by norm_num, by norm_num,
   create_wcs_grid_sizing 1 2 1 (1/10000) 2 (by norm_num) (by norm_num)⟩

/-- C5: with `collapse=True`, `create_wcs` returns a wavelength bin-edge
array with exactly one bin (`[-1/2, 1/2]`), the wavelength reference is the
data minimum, the wavelength step is the full data extent, and the whole
result is independent of the requested `dwave`. -/
theorem create_wcs_collapse_single_bin (all_ra all_dec all_wave : List ℚ)
    (dspat dwave : ℚ) (cosdeg : ℚ → ℚ)
    (ra_min ra_max dec_min dec_max wave_min wave_max : Option ℚ)
    (reference : Option RefImg) :
    (create_wcs all_ra all_dec all_wave dspat dwave cosdeg
        ra_min ra_max dec_min dec_max wave_min wave_max reference true).2.1.2.2
      = [-(1/2), 1/2]
    ∧ (create_wcs all_ra all_dec all_wave dspat dwave cosdeg
        ra_min ra_max dec_min dec_max wave_min wave_max reference true).1.crval.2.2
      = listMin all_wave
    ∧ (create_wcs all_ra all_dec all_wave dspat dwave cosdeg
        ra_min ra_max dec_min dec_max wave_min wave_max reference true).1.cdelt.2.2
      = listMax all_wave - listMin all_wave
    ∧ (∀ dwave', create_wcs all_ra all_dec all_wave dspat dwave' cosdeg
        ra_min ra_max dec_min dec_max wave_min wave_max reference true
      = create_wcs all_ra all_dec all_wave dspat dwave cosdeg
        ra_min ra_max dec_min dec_max wave_min wave_max reference true) := by
  have hbins : binsOf 1 = [-(1/2), 1/2] := by
    rw [show binsOf 1 = (List.range 2).map (fun (i : ℕ) => (i : ℚ) - 1/2) from rfl]
    rw [show List.range 2 = [0, 1] from rfl]
    norm_num
  cases reference with
  | none => exact ⟨hbins, rfl, rfl, fun _ => rfl⟩
  | some img => exact ⟨hbins, rfl, rfl, fun _ => rfl⟩

/-! ### `subpixellate` (datacube.py lines 1446-1516)

Data model: one `Pix` record per row of the flattened per-pixel arrays
(`all_ra`, `all_dec`, `all_wave`, `all_sci`, `all_ivar`, `all_wghts`,
`all_spatpos`, `all_specpos`, `all_spatid`, `all_idx`), which the source
requires to share length and ordering; one `Frame` record per entry of the
(equal-length, as checked at lines 1418-1444) collaborator lists `tilts`,
`slits`, `astrom_trans`, `all_dar`.  The collaborator objects are
function-valued, exactly as the source calls their methods. -/

/-- One detector pixel row of the flattened input arrays. -/
structure Pix where
  ra : ℚ
  dec : ℚ
  wave : ℚ
  sci : ℚ
  ivar : ℚ
  wght : ℚ
  spatpos : ℤ
  specpos : ℤ
  spatid : ℕ
  idx : ℕ

/-- One frame's collaborators: the tilt image (indexed `[specpos, spatpos]`),
the slit trace set (`spat_id`, `nspec`), the astrometric transform
(`transform(sl, spat, spec)`), and the DAR corrector
(`correction(wave) -> (ra_corr, dec_corr)`). -/
structure Frame where
  tilts : ℤ → ℤ → ℚ
  spat_id : List ℕ
  nspec : ℕ
  transform : ℕ → ℚ → ℚ → ℚ
  dar : ℚ → ℚ × ℚ

instance : Inhabited Frame :=
  ⟨⟨fun _ _ => 0, [], 0, fun _ _ _ => 0, fun _ => (0, 0)⟩⟩

/-- Linear interpolation through two points, defined for any query `x`
(extrapolating beyond the segment). -/
def lerp (p q : ℚ × ℚ) (x : ℚ) : ℚ := p.2 + (q.2 - p.2) * (x - p.1) / (q.1 - p.1)

/-- Piecewise-linear interpolant over points sorted by abscissa, with linear
extrapolation from the first/last segment (`scipy.interp1d(kind='linear',
fill_value='extrapolate')`). -/
def interpSorted : List (ℚ × ℚ) → ℚ → ℚ
  | [], _ => 0
  | [p], _ => p.2
  | [p, q], x => lerp p q x
  | p :: q :: r :: rest, x =>
    if x ≤ q.1 then lerp p q x else interpSorted (q :: r :: rest) x

/-- Insertion into a list sorted by first component. -/
def insertByFst (x : ℚ × ℚ) : List (ℚ × ℚ) → List (ℚ × ℚ)
  | [] => [x]
  | y :: t => if x.1 ≤ y.1 then x :: y :: t else y :: insertByFst x t

/-- Sort by first component (`np.argsort` applied to both arrays). -/
def sortByFst : List (ℚ × ℚ) → List (ℚ × ℚ)
  | [] => []
  | x :: t => insertByFst x (sortByFst t)

/-- `scipy.interp1d` fitted to (x, y) samples, evaluated at `x`. -/
def interp1d (pts : List (ℚ × ℚ)) (x : ℚ) : ℚ := interpSorted (sortByFst pts) x

/-- The subpixel voxel coordinates contributed by one parent pixel `p` of a
slit (lines 1472-1500), in the flattened order (spectral offset outer,
spatial offset inner) of `np.add.outer(..).flatten()`.  The interpolants are
fitted from all pixels `ps` of the slit; `w2p` is
`output_wcs.wcs_world2pix`, and the wavelength is converted to meters
(`* 1.0E-10`) for it. -/
def pixSubCoords (w2p : ℚ × ℚ × ℚ → ℚ × ℚ × ℚ) (f : Frame) (sl : ℕ) (ps : List Pix)
    (nspec_sub nspat_sub : ℕ) (p : Pix) : List (ℚ × ℚ × ℚ) :=
  let yspl : Pix → ℚ := fun q => f.tilts q.specpos q.spatpos * ((f.nspec : ℚ) - 1)
  let wave_spl : ℚ → ℚ := interp1d (ps.map (fun q => (yspl q, q.wave)))
  let spatpos : Pix → ℚ := fun q => f.transform sl (q.spatpos : ℚ) (q.specpos : ℚ)
  let ra_spl : ℚ → ℚ := interp1d (ps.map (fun q => (spatpos q, q.ra)))
  let dec_spl : ℚ → ℚ := interp1d (ps.map (fun q => (spatpos q, q.dec)))
  (pixOffsets nspec_sub).flatMap (fun soff =>
    (pixOffsets nspat_sub).map (fun toff =>
      let tiltpos := yspl p + soff
      let this_wave := wave_spl tiltpos
      let corr := f.dar this_wave
      let spatpos_subpix := f.transform sl ((p.spatpos : ℚ) + toff) ((p.specpos : ℚ) + soff)
      let this_ra := ra_spl spatpos_subpix + corr.1
      let this_dec := dec_spl spatpos_subpix + corr.2
      w2p (this_ra, this_dec, this_wave * (1 / 10 ^ 10))))

/-- The `spat_id` of slit `sl` of frame `fr` (the loop variable `spatid` of
line 1465). -/
def slitSpatId (frames : List Frame) (fr sl : ℕ) : ℕ :=
  (frames.getD fr default).spat_id.getD sl 0

/-- The pixels of slit `sl` of frame `fr`:
`np.where((all_spatid == spatid) & (all_idx == fr))` (line 1470), in input
order. -/
def slitPix (pixels : List Pix) (frames : List Frame) (fr sl : ℕ) : List Pix :=
  pixels.filter (fun p => p.spatid == slitSpatId frames fr sl && p.idx == fr)

/-- Number of slits of frame `fr` (`this_slits.spat_id` enumeration). -/
def nslits (frames : List Frame) (fr : ℕ) : ℕ := (frames.getD fr default).spat_id.length

/-- The (frame, slit) pairs in the order of the nested loops of
lines 1460-1465. -/
def framePairs (frames : List Frame) : List (ℕ × ℕ) :=
  (List.range frames.length).flatMap (fun fr =>
    (List.range (nslits frames fr)).map (fun sl => (fr, sl)))

/-- `np.repeat(vals, k)`: each element replicated `k` times in place. -/
def repeatWeights (vals : List ℚ) (k : ℕ) : List ℚ :=
  vals.flatMap (fun v => List.replicate k v)

/-- The three bin-edge arrays passed to `subpixellate` as `bins`. -/
structure BinEdges where
  x : List ℚ
  y : List ℚ
  z : List ℚ

/-- `outshape = (bins[0].size-1, bins[1].size-1, bins[2].size-1)`
(line 1446). -/
def outshape (b : BinEdges) : ℕ × ℕ × ℕ :=
  (b.x.length - 1, b.y.length - 1, b.z.length - 1)

/-- `binrng = [[bins[i][0], bins[i][-1]] for i]` (line 1447). -/
def binrng (b : BinEdges) : (ℚ × ℚ) × (ℚ × ℚ) × (ℚ × ℚ) :=
  ((b.x.headD 0, b.x.getLastD 0), (b.y.headD 0, b.y.getLastD 0),
   (b.z.headD 0, b.z.getLastD 0))

/-- One axis of the `fast_histogram` kernel: `n` regular bins over
`[lo, hi)`; a coordinate lands in bin `⌊(x-lo)·n/(hi-lo)⌋` when
`lo ≤ x < hi` (the upper edge is exclusive in `fast_histogram`) and is
silently dropped otherwise.  The kernel presupposes at least one bin per
axis (`bins[i].size ≥ 2`). -/
def binIndex (lo hi : ℚ) (n : ℕ) (x : ℚ) : Option ℕ :=
  if 0 < n ∧ lo ≤ x ∧ x < hi then some (⌊(x - lo) * n / (hi - lo)⌋).toNat else none

/-- The voxel address of a 3D point, `none` when any axis is out of range. -/
def voxIdx (shape : ℕ × ℕ × ℕ) (rng : (ℚ × ℚ) × (ℚ × ℚ) × (ℚ × ℚ))
    (pt : ℚ × ℚ × ℚ) : Option (ℕ × ℕ × ℕ) :=
  match binIndex rng.1.1 rng.1.2 shape.1 pt.1,
      binIndex rng.2.1.1 rng.2.1.2 shape.2.1 pt.2.1,
      binIndex rng.2.2.1 rng.2.2.2 shape.2.2 pt.2.2 with
  | some i, some j, some k => some (i, j, k)
  | _, _, _ => none

/-- Add weight `w` to the cube at voxel `v`. -/
def addAt (c : Cube3) (v : ℕ × ℕ × ℕ) (w : ℚ) : Cube3 :=
  fun i j k => if i = v.1 ∧ j = v.2.1 ∧ k = v.2.2 then c i j k + w else c i j k

/-- The all-zero cube (`np.zeros(outshape)`, line 1448). -/
def zeroCube : Cube3 := fun _ _ _ => 0

/-- One histogram deposit: add the weight at the point's voxel, or leave the
cube unchanged when the point is out of range. -/
def histStep (shape : ℕ × ℕ × ℕ) (rng : (ℚ × ℚ) × (ℚ × ℚ) × (ℚ × ℚ))
    (c : Cube3) (pw : (ℚ × ℚ × ℚ) × ℚ) : Cube3 :=
  match voxIdx shape rng pw.1 with
  | some v => addAt c v pw.2
  | none => c

/-- `fast_histogram.histogramdd(pts, bins=shape, range=rng, weights=ws)`. -/
def histogramdd (pts : List (ℚ × ℚ × ℚ)) (ws : List ℚ) (shape : ℕ × ℕ × ℕ)
    (rng : (ℚ × ℚ) × (ℚ × ℚ) × (ℚ × ℚ)) : Cube3 :=
  (pts.zip ws).foldl (histStep shape rng) zeroCube

/-- The inputs of `subpixellate`, after the list-vs-single normalization of
lines 1418-1444. -/
structure SubpixArgs where
  w2p : ℚ × ℚ × ℚ → ℚ × ℚ × ℚ
  pixels : List Pix
  frames : List Frame
  bins : BinEdges
  spec_subpixel : ℕ
  spat_subpixel : ℕ

/-- `num_subpixels = spec_subpixel * spat_subpixel` (line 1455). -/
def numSubpixels (a : SubpixArgs) : ℕ := a.spec_subpixel * a.spat_subpixel

/-- `area = 1 / num_subpixels` (line 1456). -/
def subpixArea (a : SubpixArgs) : ℚ := 1 / (numSubpixels a : ℚ)

/-- The voxel coordinates of all subpixels of one (frame, slit) pair, in
flattened order (pixel, then spectral offset, then spatial offset). -/
def pairCoords (a : SubpixArgs) (pr : ℕ × ℕ) : List (ℚ × ℚ × ℚ) :=
  (slitPix a.pixels a.frames pr.1 pr.2).flatMap
    (pixSubCoords a.w2p (a.frames.getD pr.1 default) pr.2
      (slitPix a.pixels a.frames pr.1 pr.2) a.spec_subpixel a.spat_subpixel)

/-- Flux histogram weights of one pair:
`np.repeat(all_sci[this_sl] * all_wght_subpix[this_sl], num_subpixels)`
(line 1502), with `all_wght_subpix = all_wghts * area` (line 1457). -/
def pairFlxW (a : SubpixArgs) (pr : ℕ × ℕ) : List ℚ :=
  repeatWeights ((slitPix a.pixels a.frames pr.1 pr.2).map
    (fun p => p.sci * (p.wght * subpixArea a))) (numSubpixels a)

/-- Variance histogram weights of one pair:
`np.repeat(all_var[this_sl] * all_wght_subpix[this_sl]**2, num_subpixels)`
(line 1503), with `all_var = utils.inverse(all_ivar)` (line 1458). -/
def pairVarW (a : SubpixArgs) (pr : ℕ × ℕ) : List ℚ :=
  repeatWeights ((slitPix a.pixels a.frames pr.1 pr.2).map
    (fun p => inverse p.ivar * (p.wght * subpixArea a) ^ 2)) (numSubpixels a)

/-- Normalization histogram weights of one pair:
`np.repeat(all_wght_subpix[this_sl], num_subpixels)` (line 1504). -/
def pairNormW (a : SubpixArgs) (pr : ℕ × ℕ) : List ℚ :=
  repeatWeights ((slitPix a.pixels a.frames pr.1 pr.2).map
    (fun p => p.wght * subpixArea a)) (numSubpixels a)

/-- The `+=` accumulation of per-pair histogram cubes over a list of
(frame, slit) pairs, written as the pointwise sum of the contributions. -/
def accumCube (f : ℕ × ℕ → Cube3) (pairs : List (ℕ × ℕ)) : Cube3 :=
  fun i j k => (pairs.map (fun pr => f pr i j k)).sum

/-- Per-pair flux histogram (line 1502). -/
def pairFlxHist (a : SubpixArgs) (pr : ℕ × ℕ) : Cube3 :=
  histogramdd (pairCoords a pr) (pairFlxW a pr) (outshape a.bins) (binrng a.bins)

/-- Per-pair variance histogram (line 1503). -/
def pairVarHist (a : SubpixArgs) (pr : ℕ × ℕ) : Cube3 :=
  histogramdd (pairCoords a pr) (pairVarW a pr) (outshape a.bins) (binrng a.bins)

/-- Per-pair normalization histogram (line 1504). -/
def pairNormHist (a : SubpixArgs) (pr : ℕ × ℕ) : Cube3 :=
  histogramdd (pairCoords a pr) (pairNormW a pr) (outshape a.bins) (binrng a.bins)

/-- Accumulated flux cube before finalization. -/
def flxAccum (a : SubpixArgs) (pairs : List (ℕ × ℕ)) : Cube3 := accumCube (pairFlxHist a) pairs

/-- Accumulated variance cube before finalization. -/
def varAccum (a : SubpixArgs) (pairs : List (ℕ × ℕ)) : Cube3 := accumCube (pairVarHist a) pairs

/-- Accumulated normalization cube before finalization. -/
def normAccum (a : SubpixArgs) (pairs : List (ℕ × ℕ)) : Cube3 := accumCube (pairNormHist a) pairs

/-- Finalization of the accumulated cubes (lines 1507-1511):
`nc_inverse = utils.inverse(normcube)`, `flxcube *= nc_inverse`,
`varcube *= nc_inverse**2`, `bpmcube = (normcube == 0).astype(np.uint8)`. -/
def finalizeCubes (flxcube varcube normcube : Cube3) :
    Cube3 × Cube3 × (ℕ → ℕ → ℕ → ℕ) :=
  (fun i j k => flxcube i j k * inverse (normcube i j k),
   fun i j k => varcube i j k * inverse (normcube i j k) ^ 2,
   fun i j k => if normcube i j k = 0 then 1 else 0)

/-- `subpixellate` (lines 1446-1516, `debug=False`): accumulate the three
cubes over the (frame, slit) loop, then finalize. -/
def subpixellate (a : SubpixArgs) : Cube3 × Cube3 × (ℕ → ℕ → ℕ → ℕ) :=
  finalizeCubes (flxAccum a (framePairs a.frames)) (varAccum a (framePairs a.frames))
    (normAccum a (framePairs a.frames))

/-- The subpixels of one (frame, slit) pair, each tagged with its parent
pixel, in processing order. -/
def pairSubpix (a : SubpixArgs) (pr : ℕ × ℕ) : List ((ℚ × ℚ × ℚ) × Pix) :=
  (slitPix a.pixels a.frames pr.1 pr.2).flatMap (fun p =>
    (pixSubCoords a.w2p (a.frames.getD pr.1 default) pr.2
      (slitPix a.pixels a.frames pr.1 pr.2) a.spec_subpixel a.spat_subpixel p).map
      (fun c => (c, p)))

/-- All subpixels generated by `subpixellate`, across the (frame, slit)
loop, each tagged with its parent pixel. -/
def allSubpix (a : SubpixArgs) : List ((ℚ × ℚ × ℚ) × Pix) :=
  (framePairs a.frames).flatMap (pairSubpix a)

/-- Total of a cube over the output grid. -/
def cubeTotal (shape : ℕ × ℕ × ℕ) (c : Cube3) : ℚ :=
  ∑ i in Finset.range shape.1, ∑ j in Finset.range shape.2.1,
    ∑ k in Finset.range shape.2.2, c i j k

/-! ### Histogram accounting lemmas -/

theorem addAt_eq_add_indicator (c : Cube3) (v : ℕ × ℕ × ℕ) (w : ℚ) :
    addAt c v w
      = fun i j k => c i j k + (if i = v.1 ∧ j = v.2.1 ∧ k = v.2.2 then w else 0) := by
  funext i j k
  unfold addAt
  split_ifs <;> simp

theorem cubeTotal_add (shape : ℕ × ℕ × ℕ) (c d : Cube3) :
    cubeTotal shape (fun i j k => c i j k + d i j k)
      = cubeTotal shape c + cubeTotal shape d := by
  unfold cubeTotal
  simp [Finset.sum_add_distrib]

theorem cubeTotal_zero (shape : ℕ × ℕ × ℕ) : cubeTotal shape zeroCube = 0 := by
  unfold cubeTotal zeroCube
  simp

theorem sum_ite_point (n c : ℕ) (x : ℚ) (hc : c < n) :
    ∑ k in Finset.range n, (if k = c then x else 0) = x := by
  rw [Finset.sum_ite_eq' (Finset.range n) c (fun _ => x)]
  simp [hc]

theorem cubeTotal_indicator (n1 n2 n3 : ℕ) (v : ℕ × ℕ × ℕ) (w : ℚ)
    (h1 : v.1 < n1) (h2 : v.2.1 < n2) (h3 : v.2.2 < n3) :
    cubeTotal (n1, n2, n3) (fun i j k => if i = v.1 ∧ j = v.2.1 ∧ k = v.2.2 then w else 0)
      = w := by
  unfold cubeTotal
  have hk : ∀ i j : ℕ,
      (∑ k in Finset.range n3, if i = v.1 ∧ j = v.2.1 ∧ k = v.2.2 then w else 0)
        = if i = v.1 ∧ j = v.2.1 then w else 0 := by
    intro i j
    by_cases hij : i = v.1 ∧ j = v.2.1
    · rw [if_pos hij]
      calc (∑ k in Finset.range n3, if i = v.1 ∧ j = v.2.1 ∧ k = v.2.2 then w else 0)
          = ∑ k in Finset.range n3, (if k = v.2.2 then w else 0) :=
            Finset.sum_congr rfl (fun k _ => by simp [hij.1, hij.2])
        _ = w := sum_ite_point n3 v.2.2 w h3
    · rw [if_neg hij]
      exact Finset.sum_eq_zero (fun k _ => if_neg (by tauto))
  have hj : ∀ i : ℕ,
      (∑ j in Finset.range n2, if i = v.1 ∧ j = v.2.1 then w else 0)
        = if i = v.1 then w else 0 := by
    intro i
    by_cases hi : i = v.1
    · rw [if_pos hi]
      calc (∑ j in Finset.range n2, if i = v.1 ∧ j = v.2.1 then w else 0)
          = ∑ j in Finset.range n2, (if j = v.2.1 then w else 0) :=
            Finset.sum_congr rfl (fun j _ => by simp [hi])
        _ = w := sum_ite_point n2 v.2.1 w h2
    · rw [if_neg hi]
      exact Finset.sum_eq_zero (fun j _ => if_neg (by tauto))
  calc (∑ i in Finset.range n1, ∑ j in Finset.range n2, ∑ k in Finset.range n3,
        if i = v.1 ∧ j = v.2.1 ∧ k = v.2.2 then w else 0)
      = ∑ i in Finset.range n1, ∑ j in Finset.range n2,
          (if i = v.1 ∧ j = v.2.1 then w else 0) :=
        Finset.sum_congr rfl (fun i _ => Finset.sum_congr rfl (fun j _ => hk i j))
    _ = ∑ i in Finset.range n1, (if i = v.1 then w else 0) :=
        Finset.sum_congr rfl (fun i _ => hj i)
    _ = w := sum_ite_point n1 v.1 w h1

theorem binIndex_lt (lo hi : ℚ) (n : ℕ) (x : ℚ) (i : ℕ)
    (h : binIndex lo hi n x = some i) : i < n := by
  unfold binIndex at h
  by_cases hc : 0 < n ∧ lo ≤ x ∧ x < hi
  · rw [if_pos hc] at h
    obtain ⟨hn, hlo, hhi⟩ := hc
    have hwidth : (0 : ℚ) < hi - lo := by linarith
    have hn0 : (0 : ℚ) < (n : ℚ) := by exact_mod_cast hn
    injection h with h'
    subst h'
    have hz0 : (0 : ℚ) ≤ (x - lo) * n / (hi - lo) :=
      div_nonneg (mul_nonneg (by linarith) hn0.le) hwidth.le
    have hzlt : (x - lo) * n / (hi - lo) < n := by
      rw [div_lt_iff₀ hwidth]
      calc (x - lo) * n < (hi - lo) * n := by
            apply mul_lt_mul_of_pos_right _ hn0
            linarith
        _ = n * (hi - lo) := mul_comm _ _
    have hfl : ⌊(x - lo) * n / (hi - lo)⌋ < (n : ℤ) := by
      rw [Int.floor_lt]
      exact_mod_cast hzlt
    have hfl0 : 0 ≤ ⌊(x - lo) * n / (hi - lo)⌋ := Int.floor_nonneg.mpr hz0
    omega
  · rw [if_neg hc] at h
    cases h

theorem voxIdx_bounds (shape : ℕ × ℕ × ℕ) (rng : (ℚ × ℚ) × (ℚ × ℚ) × (ℚ × ℚ))
    (pt : ℚ × ℚ × ℚ) (v : ℕ × ℕ × ℕ) (h : voxIdx shape rng pt = some v) :
    v.1 < shape.1 ∧ v.2.1 < shape.2.1 ∧ v.2.2 < shape.2.2 := by
  unfold voxIdx at h
  rcases hx : binIndex rng.1.1 rng.1.2 shape.1 pt.1 with _ | i <;>
    rcases hy : binIndex rng.2.1.1 rng.2.1.2 shape.2.1 pt.2.1 with _ | j <;>
    rcases hz : binIndex rng.2.2.1 rng.2.2.2 shape.2.2 pt.2.2 with _ | k <;>
    rw [hx, hy, hz] at h <;> cases h
  exact ⟨binIndex_lt _ _ _ _ _ hx, binIndex_lt _ _ _ _ _ hy, binIndex_lt _ _ _ _ _ hz⟩

theorem histStep_none (shape : ℕ × ℕ × ℕ) (rng : (ℚ × ℚ) × (ℚ × ℚ) × (ℚ × ℚ))
    (c : Cube3) (pw : (ℚ × ℚ × ℚ) × ℚ) (hv : voxIdx shape rng pw.1 = none) :
    histStep shape rng c pw = c := by
  unfold histStep
  rw [hv]

theorem histStep_some (shape : ℕ × ℕ × ℕ) (rng : (ℚ × ℚ) × (ℚ × ℚ) × (ℚ × ℚ))
    (c : Cube3) (pw : (ℚ × ℚ × ℚ) × ℚ) (v : ℕ × ℕ × ℕ)
    (hv : voxIdx shape rng pw.1 = some v) :
    histStep shape rng c pw = addAt c v pw.2 := by
  unfold histStep
  rw [hv]

theorem histTotal_aux (shape : ℕ × ℕ × ℕ) (rng : (ℚ × ℚ) × (ℚ × ℚ) × (ℚ × ℚ))
    (l : List ((ℚ × ℚ × ℚ) × ℚ)) : ∀ c0 : Cube3,
    cubeTotal shape (l.foldl (histStep shape rng) c0)
      = cubeTotal shape c0
        + ((l.filter (fun pw => (voxIdx shape rng pw.1).isSome)).map (fun pw => pw.2)).sum := by
  induction l with
  | nil => intro c0; simp
  | cons pw t ih =>
    intro c0
    rw [List.foldl_cons]
    cases hv : voxIdx shape rng pw.1 with
    | none =>
      rw [histStep_none shape rng c0 pw hv, ih c0]
      have hfilt : (pw :: t).filter (fun pw => (voxIdx shape rng pw.1).isSome)
          = t.filter (fun pw => (voxIdx shape rng pw.1).isSome) :=
        List.filter_cons_of_neg (by simp [hv])
      rw [hfilt]
    | some v =>
      rw [histStep_some shape rng c0 pw v hv, ih (addAt c0 v pw.2)]
      obtain ⟨h1, h2, h3⟩ := voxIdx_bounds shape rng pw.1 v hv
      obtain ⟨n1, n2, n3⟩ := shape
      rw [addAt_eq_add_indicator, cubeTotal_add, cubeTotal_indicator n1 n2 n3 v pw.2 h1 h2 h3]
      have hfilt : (pw :: t).filter (fun pw => (voxIdx (n1, n2, n3) rng pw.1).isSome)
          = pw :: t.filter (fun pw => (voxIdx (n1, n2, n3) rng pw.1).isSome) :=
        List.filter_cons_of_pos (by simp [hv])
      rw [hfilt, List.map_cons, List.sum_cons]
      ring

theorem cubeTotal_histogramdd (shape : ℕ × ℕ × ℕ) (rng : (ℚ × ℚ) × (ℚ × ℚ) × (ℚ × ℚ))
    (pts : List (ℚ × ℚ × ℚ)) (ws : List ℚ) :
    cubeTotal shape (histogramdd pts ws shape rng)
      = (((pts.zip ws).filter (fun pw => (voxIdx shape rng pw.1).isSome)).map
          (fun pw => pw.2)).sum := by
  unfold histogramdd
  rw [histTotal_aux shape rng (pts.zip ws) zeroCube, cubeTotal_zero, zero_add]

theorem cubeTotal_accumCube (shape : ℕ × ℕ × ℕ) (f : ℕ × ℕ → Cube3)
    (pairs : List (ℕ × ℕ)) :
    cubeTotal shape (accumCube f pairs)
      = (pairs.map (fun pr => cubeTotal shape (f pr))).sum := by
  induction pairs with
  | nil => simp [accumCube, cubeTotal]
  | cons pr t ih =>
    have hsplit : accumCube f (pr :: t) = fun i j k => f pr i j k + accumCube f t i j k := by
      funext i j k
      simp [accumCube]
    rw [hsplit, cubeTotal_add, ih, List.map_cons, List.sum_cons]

/-! ### Claim theorems: C3 and C7 -/

/-- C3: `subpixellate` finalizes the accumulated cubes with the safe inverse
of the normalization — flux is the flux sum times `inverse(norm)`, variance
is the variance sum times `inverse(norm)^2`, the bad-pixel mask is 1 exactly
at the voxels with zero normalization, and a zero-normalization voxel
yields flux and variance exactly 0 (no NaN/Inf, no exception: the
finalization is total). -/
theorem subpixellate_finalization (a : SubpixArgs) (i j k : ℕ) :
    (subpixellate a).1 i j k
      = flxAccum a (framePairs a.frames) i j k
        * inverse (normAccum a (framePairs a.frames) i j k)
    ∧ (subpixellate a).2.1 i j k
      = varAccum a (framePairs a.frames) i j k
        * inverse (normAccum a (framePairs a.frames) i j k) ^ 2
    ∧ ((subpixellate a).2.2 i j k = 1 ↔ normAccum a (framePairs a.frames) i j k = 0)
    ∧ (normAccum a (framePairs a.frames) i j k = 0 →
        (subpixellate a).1 i j k = 0 ∧ (subpixellate a).2.1 i j k = 0) := by
  refine ⟨rfl, rfl, ?_, ?_⟩
  · show (if normAccum a (framePairs a.frames) i j k = 0 then (1 : ℕ) else 0) = 1
      ↔ normAccum a (framePairs a.frames) i j k = 0
    split_ifs with h
    · exact ⟨fun _ => h, fun _ => rfl⟩
    · exact ⟨fun h1 => absurd h1 (by norm_num), fun h1 => absurd h1 h⟩
  · intro h
    constructor
    · show flxAccum a (framePairs a.frames) i j k
        * inverse (normAccum a (framePairs a.frames) i j k) = 0
      rw [h, inverse_zero, mul_zero]
    · show varAccum a (framePairs a.frames) i j k
        * inverse (normAccum a (framePairs a.frames) i j k) ^ 2 = 0
      rw [h, inverse_zero]
      norm_num

/-- C7: permuting the (frame, slit) processing order leaves the three
accumulated cubes, and hence the finalized outputs of `subpixellate`,
unchanged. -/
theorem subpixellate_order_independent (a : SubpixArgs) (pairs2 : List (ℕ × ℕ))
    (hperm : pairs2.Perm (framePairs a.frames)) :
    flxAccum a pairs2 = flxAccum a (framePairs a.frames)
    ∧ varAccum a pairs2 = varAccum a (framePairs a.frames)
    ∧ normAccum a pairs2 = normAccum a (framePairs a.frames)
    ∧ finalizeCubes (flxAccum a pairs2) (varAccum a pairs2) (normAccum a pairs2)
        = subpixellate a := by
  have key : ∀ f : ℕ × ℕ → Cube3, accumCube f pairs2 = accumCube f (framePairs a.frames) := by
    intro f
    funext i j k
    exact List.Perm.sum_eq (hperm.map (fun pr => f pr i j k))
  refine ⟨key _, key _, key _, ?_⟩
  unfold subpixellate flxAccum varAccum normAccum
  rw [key (pairFlxHist a), key (pairVarHist a), key (pairNormHist a)]

/-! ### Concrete sample inputs for the witnesses -/

/-- A concrete frame for witnesses: two slits, simple collaborators. -/
def sampleFrame : Frame :=
  ⟨fun sp _ => (sp : ℚ) / 10, [3, 7], 11, fun _ s _ => s, fun w => (w / 100000, 0)⟩

/-- Concrete bin edges for witnesses: a 2×1×1 output grid. -/
def sampleBins : BinEdges :=
  ⟨[-(1/2), 1/2, 3/2], [-(1/2), 1/2], [-(1/2), 1/2]⟩

/-- A concrete pixel on slit 3 of frame 0. -/
def samplePix1 : Pix := ⟨0, 0, 4500, 2, 4, 1, 0, 0, 3, 0⟩

/-- A concrete pixel on slit 7 of frame 0. -/
def samplePix2 : Pix := ⟨1/1000, 0, 4600, 3, 1, 2, 1, 1, 7, 0⟩

/-- Concrete `subpixellate` inputs for witnesses. -/
def sampleArgs : SubpixArgs :=
  ⟨fun c => c, [samplePix1, samplePix2], [sampleFrame], sampleBins, 2, 1⟩

theorem subpixellate_finalization_witness :
    (subpixellate sampleArgs).1 0 0 0
      = flxAccum sampleArgs (framePairs sampleArgs.frames) 0 0 0
        * inverse (normAccum sampleArgs (framePairs sampleArgs.frames) 0 0 0)
    ∧ (subpixellate sampleArgs).2.1 0 0 0
      = varAccum sampleArgs (framePairs sampleArgs.frames) 0 0 0
        * inverse (normAccum sampleArgs (framePairs sampleArgs.frames) 0 0 0) ^ 2
    ∧ ((subpixellate sampleArgs).2.2 0 0 0 = 1
        ↔ normAccum sampleArgs (framePairs sampleArgs.frames) 0 0 0 = 0)
    ∧ (normAccum sampleArgs (framePairs sampleArgs.frames) 0 0 0 = 0 →
        (subpixellate sampleArgs).1 0 0 0 = 0 ∧ (subpixellate sampleArgs).2.1 0 0 0 = 0) :=
  subpixellate_finalization sampleArgs 0 0 0

theorem subpixellate_order_independent_witness :
    (framePairs sampleArgs.frames).reverse.Perm (framePairs sampleArgs.frames)
    ∧ (flxAccum sampleArgs (framePairs sampleArgs.frames).reverse
        = flxAccum sampleArgs (framePairs sampleArgs.frames)
      ∧ varAccum sampleArgs (framePairs sampleArgs.frames).reverse
        = varAccum sampleArgs (framePairs sampleArgs.frames)
      ∧ normAccum sampleArgs (framePairs sampleArgs.frames).reverse
        = normAccum sampleArgs (framePairs sampleArgs.frames)
      ∧ finalizeCubes (flxAccum sampleArgs (framePairs sampleArgs.frames).reverse)
          (varAccum sampleArgs (framePairs sampleArgs.frames).reverse)
          (normAccum sampleArgs (framePairs sampleArgs.frames).reverse)
        = subpixellate sampleArgs) :=
  ⟨List.reverse_perm _,
   subpixellate_order_independent sampleArgs _ (List.reverse_perm _)⟩

/-! ### Alignment of `np.repeat` weights with the flattened subpixels -/

theorem zip_replicate_self {α β : Type} (xs : List α) (y : β) :
    xs.zip (List.replicate xs.length y) = xs.map (fun x => (x, y)) := by
  induction xs with
  | nil => rfl
  | cons x t ih => simp [List.replicate_succ, ih]

theorem zip_flatMap_replicate {α β γ : Type} (l : List α) (f : α → List β) (g : α → γ)
    (K : ℕ) (hlen : ∀ x ∈ l, (f x).length = K) :
    (l.flatMap f).zip (l.flatMap (fun x => List.replicate K (g x)))
      = l.flatMap (fun x => (f x).map (fun b => (b, g x))) := by
  induction l with
  | nil => rfl
  | cons x t ih =>
    have hx : (f x).length = K := hlen x (List.mem_cons_self x t)
    simp only [List.flatMap_cons]
    rw [List.zip_append (by rw [hx, List.length_replicate]),
      ih (fun y hy => hlen y (List.mem_cons_of_mem x hy))]
    congr 1
    rw [← hx, zip_replicate_self]

theorem flatMap_map_fn {α β γ : Type} (l : List α) (g : α → β) (h : β → List γ) :
    (l.map g).flatMap h = l.flatMap (fun x => h (g x)) := by
  induction l with
  | nil => rfl
  | cons x t ih => simp [List.flatMap_cons, ih]

theorem length_flatMap_const {α β : Type} (l : List α) (f : α → List β) (K : ℕ)
    (h : ∀ x ∈ l, (f x).length = K) : (l.flatMap f).length = l.length * K := by
  induction l with
  | nil => simp
  | cons x t ih =>
    rw [List.flatMap_cons, List.length_append, h x (List.mem_cons_self x t),
      ih (fun y hy => h y (List.mem_cons_of_mem x hy)), List.length_cons]
    ring

theorem pixSubCoords_length (w2p : ℚ × ℚ × ℚ → ℚ × ℚ × ℚ) (f : Frame) (sl : ℕ)
    (ps : List Pix) (n m : ℕ) (p : Pix) (hn : 1 ≤ n) (hm : 1 ≤ m) :
    (pixSubCoords w2p f sl ps n m p).length = n * m := by
  unfold pixSubCoords
  rw [length_flatMap_const _ _ m
      (fun soff _ => by rw [List.length_map, pixOffsets_length m hm]),
    pixOffsets_length n hn]

/-- The weight list paired against the subpixel coordinates of a pair: for
any per-pixel weight formula `g`, the `np.repeat(..., num_subpixels)`
alignment tags every subpixel of parent `p` with exactly `g p`. -/
theorem pair_zip_general (a : SubpixArgs) (pr : ℕ × ℕ) (g : Pix → ℚ)
    (hn : 1 ≤ a.spec_subpixel) (hm : 1 ≤ a.spat_subpixel) :
    (pairCoords a pr).zip
        (repeatWeights ((slitPix a.pixels a.frames pr.1 pr.2).map g) (numSubpixels a))
      = (slitPix a.pixels a.frames pr.1 pr.2).flatMap (fun p =>
          (pixSubCoords a.w2p (a.frames.getD pr.1 default) pr.2
            (slitPix a.pixels a.frames pr.1 pr.2) a.spec_subpixel a.spat_subpixel p).map
            (fun c => (c, g p))) := by
  unfold pairCoords repeatWeights
  rw [flatMap_map_fn]
  exact zip_flatMap_replicate (slitPix a.pixels a.frames pr.1 pr.2) _ g (numSubpixels a)
    (fun p _ => pixSubCoords_length a.w2p _ pr.2 _ _ _ p hn hm)

/-- C2: each of the `spec_subpixel * spat_subpixel` subpixels of a parent
pixel with weight `w`, counts `s` and inverse variance `iv` is paired, in
the three histograms, with weights `s*(w/N)`, `inverse(iv)*(w/N)^2` and
`w/N` respectively, where `N = spec_subpixel * spat_subpixel` and
`inverse` is the safe inverse. -/
theorem subpixellate_per_subpixel_weights (a : SubpixArgs) (pr : ℕ × ℕ)
    (hn : 1 ≤ a.spec_subpixel) (hm : 1 ≤ a.spat_subpixel) :
    (∀ p ∈ slitPix a.pixels a.frames pr.1 pr.2,
      (pixSubCoords a.w2p (a.frames.getD pr.1 default) pr.2
        (slitPix a.pixels a.frames pr.1 pr.2) a.spec_subpixel a.spat_subpixel p).length
        = numSubpixels a)
    ∧ (pairCoords a pr).zip (pairFlxW a pr)
        = (slitPix a.pixels a.frames pr.1 pr.2).flatMap (fun p =>
            (pixSubCoords a.w2p (a.frames.getD pr.1 default) pr.2
              (slitPix a.pixels a.frames pr.1 pr.2) a.spec_subpixel a.spat_subpixel p).map
              (fun c => (c, p.sci * (p.wght / (numSubpixels a : ℚ)))))
    ∧ (pairCoords a pr).zip (pairVarW a pr)
        = (slitPix a.pixels a.frames pr.1 pr.2).flatMap (fun p =>
            (pixSubCoords a.w2p (a.frames.getD pr.1 default) pr.2
              (slitPix a.pixels a.frames pr.1 pr.2) a.spec_subpixel a.spat_subpixel p).map
              (fun c => (c, inverse p.ivar * (p.wght / (numSubpixels a : ℚ)) ^ 2)))
    ∧ (pairCoords a pr).zip (pairNormW a pr)
        = (slitPix a.pixels a.frames pr.1 pr.2).flatMap (fun p =>
            (pixSubCoords a.w2p (a.frames.getD pr.1 default) pr.2
              (slitPix a.pixels a.frames pr.1 pr.2) a.spec_subpixel a.spat_subpixel p).map
              (fun c => (c, p.wght / (numSubpixels a : ℚ)))) := by
  have harea : ∀ p : Pix, p.wght * subpixArea a = p.wght / (numSubpixels a : ℚ) := by
    intro p
    rw [subpixArea, mul_one_div]
  refine ⟨?_, ?_, ?_, ?_⟩
  · intro p _
    rw [pixSubCoords_length a.w2p _ pr.2 _ _ _ p hn hm]
    rfl
  · rw [show pairFlxW a pr
        = repeatWeights ((slitPix a.pixels a.frames pr.1 pr.2).map
            (fun p => p.sci * (p.wght * subpixArea a))) (numSubpixels a) from rfl,
      pair_zip_general a pr _ hn hm]
    simp only [harea]
  · rw [show pairVarW a pr
        = repeatWeights ((slitPix a.pixels a.frames pr.1 pr.2).map
            (fun p => inverse p.ivar * (p.wght * subpixArea a) ^ 2)) (numSubpixels a) from rfl,
      pair_zip_general a pr _ hn hm]
    simp only [harea]
  · rw [show pairNormW a pr
        = repeatWeights ((slitPix a.pixels a.frames pr.1 pr.2).map
            (fun p => p.wght * subpixArea a)) (numSubpixels a) from rfl,
      pair_zip_general a pr _ hn hm]
    simp only [harea]

theorem subpixellate_per_subpixel_weights_witness :
    1 ≤ sampleArgs.spec_subpixel ∧ 1 ≤ sampleArgs.spat_subpixel
    ∧ ((∀ p ∈ slitPix sampleArgs.pixels sampleArgs.frames 0 0,
        (pixSubCoords sampleArgs.w2p (sampleArgs.frames.getD 0 default) 0
          (slitPix sampleArgs.pixels sampleArgs.frames 0 0) sampleArgs.spec_subpixel
          sampleArgs.spat_subpixel p).length = numSubpixels sampleArgs)
      ∧ (pairCoords sampleArgs (0, 0)).zip (pairFlxW sampleArgs (0, 0))
          = (slitPix sampleArgs.pixels sampleArgs.frames 0 0).flatMap (fun p =>
              (pixSubCoords sampleArgs.w2p (sampleArgs.frames.getD 0 default) 0
                (slitPix sampleArgs.pixels sampleArgs.frames 0 0) sampleArgs.spec_subpixel
                sampleArgs.spat_subpixel p).map
                (fun c => (c, p.sci * (p.wght / (numSubpixels sampleArgs : ℚ)))))
      ∧ (pairCoords sampleArgs (0, 0)).zip (pairVarW sampleArgs (0, 0))
          = (slitPix sampleArgs.pixels sampleArgs.frames 0 0).flatMap (fun p =>
              (pixSubCoords sampleArgs.w2p (sampleArgs.frames.getD 0 default) 0
                (slitPix sampleArgs.pixels sampleArgs.frames 0 0) sampleArgs.spec_subpixel
                sampleArgs.spat_subpixel p).map
                (fun c => (c, inverse p.ivar * (p.wght / (numSubpixels sampleArgs : ℚ)) ^ 2)))
      ∧ (pairCoords sampleArgs (0, 0)).zip (pairNormW sampleArgs (0, 0))
          = (slitPix sampleArgs.pixels sampleArgs.frames 0 0).flatMap (fun p =>
              (pixSubCoords sampleArgs.w2p (sampleArgs.frames.getD 0 default) 0
                (slitPix sampleArgs.pixels sampleArgs.frames 0 0) sampleArgs.spec_subpixel
                sampleArgs.spat_subpixel p).map
                (fun c => (c, p.wght / (numSubpixels sampleArgs : ℚ))))) :=
  ⟨by decide, by decide, subpixellate_per_subpixel_weights sampleArgs (0, 0) (by decide) (by decide)⟩

/-! ### Weight conservation: per-pair and accumulated totals -/

theorem map_flatMap_fn {α β γ : Type} (l : List α) (f : α → List β) (g : β → γ) :
    (l.flatMap f).map g = l.flatMap (fun x => (f x).map g) := by
  induction l with
  | nil => rfl
  | cons x t ih => simp [List.flatMap_cons, ih]

theorem sum_map_const {α : Type} (l : List α) (c : ℚ) :
    (l.map (fun _ => c)).sum = (l.length : ℚ) * c := by
  induction l with
  | nil => simp
  | cons x t ih =>
    rw [List.map_cons, List.sum_cons, ih, List.length_cons]
    push_cast
    ring

theorem sum_map_add {α : Type} (l : List α) (f g : α → ℚ) :
    (l.map (fun x => f x + g x)).sum = (l.map f).sum + (l.map g).sum := by
  induction l with
  | nil => simp
  | cons x t ih =>
    simp only [List.map_cons, List.sum_cons, ih]
    ring

theorem sum_map_flatMap {α β : Type} (l : List α) (f : α → List β) (g : β → ℚ) :
    ((l.flatMap f).map g).sum = (l.map (fun x => ((f x).map g).sum)).sum := by
  induction l with
  | nil => rfl
  | cons x t ih => simp [List.flatMap_cons, ih]

/-- The total of one pair's normalization histogram: the sum, over the
pair's subpixels that fall inside the bin range, of the per-subpixel weight
`w/N`. -/
theorem pairNormHist_total (a : SubpixArgs) (pr : ℕ × ℕ)
    (hn : 1 ≤ a.spec_subpixel) (hm : 1 ≤ a.spat_subpixel) :
    cubeTotal (outshape a.bins) (pairNormHist a pr)
      = (((pairSubpix a pr).filter
            (fun cp => (voxIdx (outshape a.bins) (binrng a.bins) cp.1).isSome)).map
          (fun cp => cp.2.wght / (numSubpixels a : ℚ))).sum := by
  unfold pairNormHist
  rw [cubeTotal_histogramdd]
  rw [show pairNormW a pr = repeatWeights ((slitPix a.pixels a.frames pr.1 pr.2).map
      (fun p => p.wght * subpixArea a)) (numSubpixels a) from rfl]
  rw [pair_zip_general a pr _ hn hm]
  have hmap : (slitPix a.pixels a.frames pr.1 pr.2).flatMap (fun p =>
        (pixSubCoords a.w2p (a.frames.getD pr.1 default) pr.2
          (slitPix a.pixels a.frames pr.1 pr.2) a.spec_subpixel a.spat_subpixel p).map
          (fun c => (c, p.wght * subpixArea a)))
      = (pairSubpix a pr).map (fun cp => (cp.1, cp.2.wght * subpixArea a)) := by
    unfold pairSubpix
    rw [map_flatMap_fn]
    have hfn : (fun (p : Pix) =>
          ((pixSubCoords a.w2p (a.frames.getD pr.1 default) pr.2
            (slitPix a.pixels a.frames pr.1 pr.2) a.spec_subpixel a.spat_subpixel p).map
            (fun c => (c, p))).map (fun cp => (cp.1, cp.2.wght * subpixArea a)))
        = fun (p : Pix) =>
          (pixSubCoords a.w2p (a.frames.getD pr.1 default) pr.2
            (slitPix a.pixels a.frames pr.1 pr.2) a.spec_subpixel a.spat_subpixel p).map
            (fun c => (c, p.wght * subpixArea a)) := by
      funext p
      rw [List.map_map]
      rfl
    rw [hfn]
  rw [hmap, List.filter_map, List.map_map]
  simp only [Function.comp, subpixArea, mul_one_div]
  rfl

/-- The total of the accumulated normalization cube over any pair list. -/
theorem normAccum_total (a : SubpixArgs)
    (hn : 1 ≤ a.spec_subpixel) (hm : 1 ≤ a.spat_subpixel) (pairs : List (ℕ × ℕ)) :
    cubeTotal (outshape a.bins) (normAccum a pairs)
      = (((pairs.flatMap (pairSubpix a)).filter
            (fun cp => (voxIdx (outshape a.bins) (binrng a.bins) cp.1).isSome)).map
          (fun cp => cp.2.wght / (numSubpixels a : ℚ))).sum := by
  induction pairs with
  | nil => simp [normAccum, accumCube, cubeTotal]
  | cons pr t ih =>
    have hsplit : normAccum a (pr :: t)
        = fun i j k => pairNormHist a pr i j k + normAccum a t i j k := by
      funext i j k
      simp [normAccum, accumCube]
    rw [hsplit, cubeTotal_add, pairNormHist_total a pr hn hm, ih,
      List.flatMap_cons, List.filter_append, List.map_append, List.sum_append]

/-! ### Exactly-once coverage of the pixels by the (frame, slit) loop -/

theorem sum_range_getD_indicator (L : List ℕ) (s : ℕ) (w : ℚ) :
    ((List.range L.length).map (fun sl => if s = L.getD sl 0 then w else 0)).sum
      = (L.count s : ℚ) * w := by
  induction L with
  | nil => simp
  | cons x t ih =>
    rw [List.length_cons, List.range_succ_eq_map, List.map_cons, List.sum_cons, List.map_map]
    have hfn : ((fun sl => if s = (x :: t).getD sl 0 then w else 0) ∘ Nat.succ)
        = fun sl => if s = t.getD sl 0 then w else 0 := rfl
    rw [hfn, ih]
    by_cases h : s = x
    · subst h
      rw [show ((s :: t).getD 0 0) = s from rfl, if_pos rfl, List.count_cons]
      simp only [beq_self_eq_true, if_true]
      push_cast
      ring
    · rw [show ((x :: t).getD 0 0) = x from rfl, if_neg h, List.count_cons]
      have hb : (x == s) = false := by
        rw [beq_eq_false_iff_ne]
        exact Ne.symm h
      simp only [hb, Bool.false_eq_true, if_false]
      push_cast
      ring

theorem sum_range_point (n c : ℕ) (T : ℕ → ℚ) :
    ((List.range n).map (fun fr => if c = fr then T fr else 0)).sum
      = if c < n then T c else 0 := by
  induction n with
  | zero => simp
  | succ n ih =>
    rw [List.range_succ, List.map_append, List.sum_append, ih]
    simp only [List.map_cons, List.map_nil, List.sum_cons, List.sum_nil]
    by_cases h : c = n
    · subst h
      simp [Nat.lt_irrefl, Nat.lt_succ_iff]
    · by_cases h2 : c < n
      · have h3 : c < n + 1 := by omega
        simp [h, h2, h3]
      · have h3 : ¬ c < n + 1 := by omega
        simp [h, h2, h3]

/-- A pixel with a valid frame index whose `spatid` occurs exactly once in
its frame's `spat_id` list is selected by exactly one (frame, slit) pair. -/
theorem framePairs_indicator (frames : List Frame) (q : Pix) (w : ℚ)
    (h1 : q.idx < frames.length)
    (h2 : (frames.getD q.idx default).spat_id.count q.spatid = 1) :
    ((framePairs frames).map (fun pr =>
        if q.spatid = slitSpatId frames pr.1 pr.2 ∧ q.idx = pr.1 then w else 0)).sum = w := by
  unfold framePairs
  rw [sum_map_flatMap]
  have hinner : ∀ fr : ℕ,
      ((((List.range (nslits frames fr)).map (fun sl => (fr, sl))).map (fun pr =>
          if q.spatid = slitSpatId frames pr.1 pr.2 ∧ q.idx = pr.1 then w else 0)).sum)
        = if q.idx = fr
            then ((frames.getD fr default).spat_id.count q.spatid : ℚ) * w else 0 := by
    intro fr
    rw [List.map_map]
    have hfn : ((fun pr : ℕ × ℕ =>
          if q.spatid = slitSpatId frames pr.1 pr.2 ∧ q.idx = pr.1 then w else 0)
            ∘ (fun sl => (fr, sl)))
        = fun sl => if q.spatid = slitSpatId frames fr sl ∧ q.idx = fr then w else 0 := rfl
    rw [hfn]
    by_cases hq : q.idx = fr
    · rw [if_pos hq]
      have hfn2 : (fun sl => if q.spatid = slitSpatId frames fr sl ∧ q.idx = fr then w else 0)
          = fun sl => if q.spatid = slitSpatId frames fr sl then w else 0 := by
        funext sl
        by_cases hs : q.spatid = slitSpatId frames fr sl
        · simp [hs, hq]
        · simp [hs]
      rw [hfn2]
      exact sum_range_getD_indicator (frames.getD fr default).spat_id q.spatid w
    · rw [if_neg hq]
      apply List.sum_eq_zero
      intro x hx
      rcases List.mem_map.mp hx with ⟨sl, _, rfl⟩
      exact if_neg (by tauto)
  rw [List.map_congr_left (fun fr _ => hinner fr),
    sum_range_point frames.length q.idx _, if_pos h1, h2]
  norm_num

/-- Summing a per-pixel quantity over the (frame, slit) slit selections
recovers the sum over all pixels, when every pixel is selected exactly
once. -/
theorem slit_partition_sum (pixels : List Pix) (frames : List Frame)
    (h : ∀ p ∈ pixels, p.idx < frames.length
      ∧ (frames.getD p.idx default).spat_id.count p.spatid = 1) :
    ((framePairs frames).map (fun pr =>
        ((slitPix pixels frames pr.1 pr.2).map (fun p => p.wght)).sum)).sum
      = (pixels.map (fun p => p.wght)).sum := by
  induction pixels with
  | nil =>
    have h0 : (framePairs frames).map (fun pr =>
        ((slitPix [] frames pr.1 pr.2).map (fun p => p.wght)).sum)
        = (framePairs frames).map (fun _ => (0 : ℚ)) :=
      List.map_congr_left (fun pr _ => rfl)
    rw [h0, sum_map_const]
    simp
  | cons q t ih =>
    obtain ⟨hq1, hq2⟩ := h q (List.mem_cons_self q t)
    have ht := fun p hp => h p (List.mem_cons_of_mem q hp)
    have hsplit : ∀ pr : ℕ × ℕ,
        ((slitPix (q :: t) frames pr.1 pr.2).map (fun p => p.wght)).sum
          = (if q.spatid = slitSpatId frames pr.1 pr.2 ∧ q.idx = pr.1 then q.wght else 0)
            + ((slitPix t frames pr.1 pr.2).map (fun p => p.wght)).sum := by
      intro pr
      unfold slitPix
      by_cases hc : q.spatid = slitSpatId frames pr.1 pr.2 ∧ q.idx = pr.1
      · rw [List.filter_cons_of_pos (by simp [hc.1, hc.2]), List.map_cons, List.sum_cons,
          if_pos hc]
      · rw [List.filter_cons_of_neg
            (by simp only [Bool.and_eq_true, beq_iff_eq, not_and]; intro ha hb; exact hc ⟨ha, hb⟩),
          if_neg hc, zero_add]
    have hmapsplit : (framePairs frames).map (fun pr =>
          ((slitPix (q :: t) frames pr.1 pr.2).map (fun p => p.wght)).sum)
        = (framePairs frames).map (fun pr =>
            (if q.spatid = slitSpatId frames pr.1 pr.2 ∧ q.idx = pr.1 then q.wght else 0)
            + ((slitPix t frames pr.1 pr.2).map (fun p => p.wght)).sum) :=
      List.map_congr_left (fun pr _ => hsplit pr)
    rw [hmapsplit, sum_map_add, framePairs_indicator frames q q.wght hq1 hq2, ih ht,
      List.map_cons, List.sum_cons]

/-- C1: the total of the accumulated normalization cube equals the sum of
`w/N` over exactly the subpixels whose voxel coordinate falls inside the
declared bin range (no in-bounds subpixel is dropped); when every subpixel
is in bounds and every pixel belongs to exactly one (frame, slit) pair, the
total equals the sum of the input per-pixel weights. -/
theorem subpixellate_weight_conservation (a : SubpixArgs)
    (hn : 1 ≤ a.spec_subpixel) (hm : 1 ≤ a.spat_subpixel) :
    cubeTotal (outshape a.bins) (normAccum a (framePairs a.frames))
      = (((allSubpix a).filter
            (fun cp => (voxIdx (outshape a.bins) (binrng a.bins) cp.1).isSome)).map
          (fun cp => cp.2.wght / (numSubpixels a : ℚ))).sum
    ∧ ((∀ cp ∈ allSubpix a, (voxIdx (outshape a.bins) (binrng a.bins) cp.1).isSome = true) →
      (∀ p ∈ a.pixels, p.idx < a.frames.length
        ∧ (a.frames.getD p.idx default).spat_id.count p.spatid = 1) →
      cubeTotal (outshape a.bins) (normAccum a (framePairs a.frames))
        = (a.pixels.map (fun p => p.wght)).sum) := by
  have hpart1 : cubeTotal (outshape a.bins) (normAccum a (framePairs a.frames))
      = (((allSubpix a).filter
            (fun cp => (voxIdx (outshape a.bins) (binrng a.bins) cp.1).isSome)).map
          (fun cp => cp.2.wght / (numSubpixels a : ℚ))).sum :=
    normAccum_total a hn hm (framePairs a.frames)
  refine ⟨hpart1, ?_⟩
  intro hin honce
  rw [hpart1, List.filter_eq_self.mpr hin,
    show allSubpix a = (framePairs a.frames).flatMap (pairSubpix a) from rfl,
    sum_map_flatMap]
  have hN : ((numSubpixels a : ℚ)) ≠ 0 := by
    have hpos : 0 < numSubpixels a := Nat.mul_pos hn hm
    exact_mod_cast hpos.ne'
  have hpair : ∀ pr : ℕ × ℕ,
      (((pairSubpix a pr).map (fun cp => cp.2.wght / (numSubpixels a : ℚ))).sum)
        = ((slitPix a.pixels a.frames pr.1 pr.2).map (fun p => p.wght)).sum := by
    intro pr
    unfold pairSubpix
    rw [sum_map_flatMap]
    have hper : ∀ p ∈ slitPix a.pixels a.frames pr.1 pr.2,
        ((((pixSubCoords a.w2p (a.frames.getD pr.1 default) pr.2
            (slitPix a.pixels a.frames pr.1 pr.2) a.spec_subpixel a.spat_subpixel p).map
            (fun c => (c, p))).map (fun cp => cp.2.wght / (numSubpixels a : ℚ))).sum)
          = p.wght := by
      intro p _
      rw [List.map_map,
        show ((fun cp : (ℚ × ℚ × ℚ) × Pix => cp.2.wght / (numSubpixels a : ℚ))
            ∘ (fun c => (c, p)))
          = fun _ => p.wght / (numSubpixels a : ℚ) from rfl,
        sum_map_const, pixSubCoords_length a.w2p _ pr.2 _ _ _ p hn hm,
        show ((a.spec_subpixel * a.spat_subpixel : ℕ) : ℚ) = (numSubpixels a : ℚ) from rfl]
      field_simp
    rw [List.map_congr_left hper]
  rw [List.map_congr_left (fun pr _ => hpair pr)]
  exact slit_partition_sum a.pixels a.frames honce

theorem subpixellate_weight_conservation_witness :
    1 ≤ sampleArgs.spec_subpixel ∧ 1 ≤ sampleArgs.spat_subpixel
    ∧ (cubeTotal (outshape sampleArgs.bins)
          (normAccum sampleArgs (framePairs sampleArgs.frames))
        = (((allSubpix sampleArgs).filter
              (fun cp => (voxIdx (outshape sampleArgs.bins) (binrng sampleArgs.bins)
                cp.1).isSome)).map
            (fun cp => cp.2.wght / (numSubpixels sampleArgs : ℚ))).sum
      ∧ ((∀ cp ∈ allSubpix sampleArgs,
            (voxIdx (outshape sampleArgs.bins) (binrng sampleArgs.bins) cp.1).isSome = true) →
        (∀ p ∈ sampleArgs.pixels, p.idx < sampleArgs.frames.length
          ∧ (sampleArgs.frames.getD p.idx default).spat_id.count p.spatid = 1) →
        cubeTotal (outshape sampleArgs.bins)
            (normAccum sampleArgs (framePairs sampleArgs.frames))
          = (sampleArgs.pixels.map (fun p => p.wght)).sum)) :=
  ⟨by decide, by decide,
   subpixellate_weight_conservation sampleArgs (by decide) (by decide)⟩

end Datacube
